import Mathlib

/-!
Verification development for the unicode-url-converter extension.

The core under verification is `content.js` (pattern builder
`createUnicodePattern`, tree walker `processTextNodes`, orchestration
`convertTextAsync`) together with the escaped pattern-builder variant that
ships in the utils module (src/unnamed/part_006, lines 219-227) and the
history operations of `storage.js`.

Modelling conventions:
* A `ConversionMap` is an association list of single source characters to
  single replacement characters, in JavaScript object-key insertion order
  (`Object.keys`).  The data model of the program fixes keys and values to
  one character each.
* JavaScript regular expressions are modelled by the fragment the two
  builders can emit: one character class `[body]` with the `g` flag.  The
  parser below follows JavaScript class syntax (first unescaped `]` closes
  the class, `^` in first position negates, identity escapes `\x` on
  non-alphanumeric `x` are literal, `a-b` between two atoms is a range and
  an out-of-order range is a SyntaxError, a dash in first or last position
  is literal).  `compileClassRegex` returns `none` both for a genuine
  SyntaxError and for pattern strings that leave the fragment (material
  after the class closes, class escapes such as `\d`); the maps appearing
  in the theorems below never produce such patterns.
* Characters are Unicode scalar values; this coincides with JavaScript's
  per-code-unit matching on the Basic Multilingual Plane, where all
  characters in this development live.
-/

namespace UUC

/-- ConversionMap: keys and values are single characters, listed in
JavaScript object-key order. -/
abbrev ConversionMap := List (Char × Char)

def mapKeys (m : ConversionMap) : List Char := m.map Prod.fst

def mapValues (m : ConversionMap) : List Char := m.map Prod.snd

/-- JavaScript property lookup `map[c]` on an object with unique keys:
first matching key wins. -/
def lookupMap : ConversionMap → Char → Option Char
  | [], _ => none
  | (k, v) :: rest, c => if k = c then some v else lookupMap rest c

/-- The default map of content.js: U+02F8 to colon, U+2024 to period,
U+2044 to slash. -/
def DEFAULT_MAP : ConversionMap :=
  [(Char.ofNat 0x02F8, ':'), (Char.ofNat 0x2024, '.'), (Char.ofNat 0x2044, '/')]

/-- One element of a parsed character class: a literal character or a
range. -/
inductive ClassItem where
  | single (c : Char)
  | range (lo hi : Char)
deriving DecidableEq, Repr

def itemMatch : ClassItem → Char → Bool
  | .single a, c => a = c
  | .range lo hi, c => lo.val ≤ c.val && c.val ≤ hi.val

/-- A compiled character-class regex: optional negation and the parsed
items.  This is the matcher object of the spec. -/
structure CompiledRegex where
  neg : Bool
  items : List ClassItem
deriving DecidableEq, Repr

/-- Whether the compiled class matches a single character. -/
def classMatch (r : CompiledRegex) (c : Char) : Bool :=
  let hit := r.items.any (fun it => itemMatch it c)
  if r.neg then !hit else hit

/-- Parse one ClassAtom of a JavaScript character class: an identity
escape `\x` (literal, for non-alphanumeric `x`; alphanumeric escapes such
as `\d` are outside the modelled fragment) or a bare character other than
the closing `]`. -/
def parseAtom : List Char → Option (Char × List Char)
  | [] => none
  | c :: rest =>
    if c = '\\' then
      match rest with
      | [] => none
      | c2 :: r => if c2.isAlphanum then none else some (c2, r)
    else if c = ']' then none
    else some (c, rest)

/-- Parse the items of a character class up to the closing `]`, following
JavaScript ClassRanges: atom, optionally `-` atom forming a range (the
range is a SyntaxError when out of order; a `-` directly before `]` is a
literal).  `fuel` bounds recursion; callers pass the input length. -/
def parseItems : Nat → List Char → Option (List ClassItem × List Char)
  | 0, _ => none
  | _ + 1, [] => none
  | fuel + 1, c :: rest =>
    if c = ']' then some ([], rest)
    else
      match parseAtom (c :: rest) with
      | none => none
      | some (a, r1) =>
        if r1.head? = some '-' ∧ r1.tail.head? ≠ some ']' then
          match parseAtom r1.tail with
          | none => none
          | some (b, r3) =>
            if a.val ≤ b.val then
              (parseItems fuel r3).map (fun p => (ClassItem.range a b :: p.1, p.2))
            else none
        else (parseItems fuel r1).map (fun p => (ClassItem.single a :: p.1, p.2))

/-- `new RegExp(p, 'g')` for the emitted fragment `[body]`: `none` models
a SyntaxError or a pattern outside the fragment. -/
def compileClassRegex (p : List Char) : Option CompiledRegex :=
  match p with
  | '[' :: rest =>
    let neg : Bool := decide (rest.head? = some '^')
    let body := if neg then rest.tail else rest
    match parseItems body.length body with
    | some (items, []) => some ⟨neg, items⟩
    | some (_, _ :: _) => none
    | none => none
  | _ => none

namespace Content

/-- content.js `createUnicodePattern`: `new RegExp('[' + keys.join('') + ']', 'g')`
with no escaping of the keys. -/
def createUnicodePattern (m : ConversionMap) : Option CompiledRegex :=
  compileClassRegex ('[' :: mapKeys m ++ [']'])

end Content

namespace Utils

/-- The character set escaped by the utils-module builder:
`/[.*+?^${}()|[\]\\]/g`.  Note the dash is absent. -/
def escapeSet : List Char :=
  ['.', '*', '+', '?', '^', '$', '{', '}', '(', ')', '|', '[', ']', '\\']

/-- `key.replace(/[.*+?^${}()|[\]\\]/g, '\\$&')` on a one-character key. -/
def escapeKey (c : Char) : List Char :=
  if c ∈ escapeSet then ['\\', c] else [c]

/-- Utils-module `createUnicodePattern` (src/unnamed/part_006, lines
219-227): empty maps get the explicit empty class `[]`, keys are passed
through `escapeKey` and joined into one class. -/
def createUnicodePattern (m : ConversionMap) : Option CompiledRegex :=
  let keys := mapKeys m
  if keys.isEmpty then compileClassRegex ['[', ']']
  else compileClassRegex ('[' :: (keys.map escapeKey).flatten ++ [']'])

end Utils

/-- The replacement callback of `processTextNodes`:
`(match) => \x7b conversions++; return map[match] || match; \x7d`, for
one-character map values (which are nonempty strings, hence truthy). -/
def substChar (m : ConversionMap) (c : Char) : Char :=
  (lookupMap m c).getD c

/-- `String.prototype.replace` with a global single-character-class
regex and a callback: every matched character is replaced by the callback
result, the second component counts callback invocations. -/
def jsReplace (r : CompiledRegex) (f : Char → List Char) : List Char → List Char × Nat
  | [] => ([], 0)
  | c :: rest =>
    let p := jsReplace r f rest
    if classMatch r c then (f c ++ p.1, p.2 + 1) else (c :: p.1, p.2)

/-- The body of the per-text-node step of `processTextNodes`:
`originalText.replace(pattern, (match) => ...)` together with the
conversion count. -/
def convertText (m : ConversionMap) (r : CompiledRegex) (s : List Char) : List Char × Nat :=
  jsReplace r (fun c => [substChar m c]) s

mutual
/-- A DOM subtree: a text node carries its character data and a count of
how many times `textContent` has been assigned to it (so that write-backs
are observable), an element carries its children in document order. -/
inductive DomNode where
  | text (content : List Char) (writes : Nat)
  | element (children : DomForest)
deriving DecidableEq, Repr

inductive DomForest where
  | nil
  | cons (d : DomNode) (ds : DomForest)
deriving DecidableEq, Repr
end

mutual
/-- The character data of every text node in a subtree, in document
order, the node itself included when it is a text node. -/
def textContentsN : DomNode → List (List Char)
  | .text s _ => [s]
  | .element cs => textContentsF cs

def textContentsF : DomForest → List (List Char)
  | .nil => []
  | .cons d ds => textContentsN d ++ textContentsF ds
end

/-- The text nodes a `TreeWalker(root, SHOW_TEXT)` yields: the root's
proper descendants, in document order (the root itself is never yielded
by `nextNode`). -/
def textNodesOf : DomNode → List (List Char)
  | .text _ _ => []
  | .element cs => textContentsF cs

mutual
/-- One step of the `textNodes.forEach` body of `processTextNodes`:
replace over the node's text, count the callback invocations, and assign
`textContent` only when the result differs from the original. -/
def processNode (m : ConversionMap) (r : CompiledRegex) : DomNode → DomNode × Nat
  | .text s w =>
    let p := convertText m r s
    if s = p.1 then (.text s w, p.2) else (.text p.1 (w + 1), p.2)
  | .element cs =>
    let p := processForest m r cs
    (.element p.1, p.2)

def processForest (m : ConversionMap) (r : CompiledRegex) : DomForest → DomForest × Nat
  | .nil => (.nil, 0)
  | .cons d ds =>
    let p := processNode m r d
    let q := processForest m r ds
    (.cons p.1 q.1, p.2 + q.2)
end

/-- content.js `processTextNodes(element, map, pattern)`: walk the text
descendants of the given root, convert each, return the conversion
count.  A text root has no descendants, so nothing is visited. -/
def processTextNodes (m : ConversionMap) (r : CompiledRegex) : DomNode → DomNode × Nat
  | .text s w => (.text s w, 0)
  | .element cs =>
    let p := processForest m r cs
    (.element p.1, p.2)

/-- The i18n message selected by `convertTextAsync`. -/
inductive MessageKind where
  | noElements
  | conversionComplete
  | invalidSelector
  | conversionError
deriving DecidableEq, Repr

/-- The `\x7bsuccess, message, count\x7d` object `convertTextAsync`
resolves with. -/
structure ConversionResult where
  success : Bool
  message : MessageKind
  count : Nat
deriving DecidableEq, Repr

/-- content.js `convertTextAsync`: build the pattern from the map (a
pattern SyntaxError is a plain error, caught by the generic branch),
query the document (`none` models `querySelectorAll` throwing the
SyntaxError DOMException on an invalid selector), report no-elements as
success with count 0, otherwise process every matched element and sum
the counts.  Returns the result object and the processed elements. -/
def convertTextAsync (queryResult : Option (List DomNode)) (m : ConversionMap) :
    ConversionResult × List DomNode :=
  match Content.createUnicodePattern m with
  | none => (⟨false, .conversionError, 0⟩, [])
  | some pat =>
    match queryResult with
    | none => (⟨false, .invalidSelector, 0⟩, [])
    | some [] => (⟨true, .noElements, 0⟩, [])
    | some elems =>
      let results := elems.map (processTextNodes m pat)
      (⟨true, .conversionComplete, (results.map Prod.snd).sum⟩, results.map Prod.fst)

namespace Storage

/-- storage.js `saveHistoryEntry`: `history.unshift(entry)`, then
`history = history.slice(0, 50)` when the length exceeds 50. -/
def saveHistoryEntry {α : Type} (history : List α) (entry : α) : List α :=
  let h := entry :: history
  if h.length > 50 then h.take 50 else h

/-- storage.js `clearHistory`: the stored history becomes `[]`. -/
def clearHistory {α : Type} : List α := []

end Storage

/-- The characters that keep their regex-metacharacter meaning inside a
character class when pasted unescaped: class close, escape lead-in, the
negation mark, and the range dash. -/
def classMetachars : List Char := [']', '\\', '^', '-']

/-- A map whose keys survive unescaped pasting into a character class. -/
def safeKeys (m : ConversionMap) : Prop := ∀ c ∈ mapKeys m, c ∉ classMetachars

instance (m : ConversionMap) : Decidable (safeKeys m) := by
  unfold safeKeys; infer_instance

theorem mapKeys_cons (p : Char × Char) (rest : ConversionMap) :
    mapKeys (p :: rest) = p.1 :: mapKeys rest := rfl

theorem mapValues_cons (p : Char × Char) (rest : ConversionMap) :
    mapValues (p :: rest) = p.2 :: mapValues rest := rfl

theorem lookupMap_eq_none (m : ConversionMap) (c : Char) (h : c ∉ mapKeys m) :
    lookupMap m c = none := by
  induction m with
  | nil => rfl
  | cons p rest ih =>
    rw [mapKeys_cons, List.mem_cons, not_or] at h
    simp only [lookupMap]
    rw [if_neg (fun hc => h.1 hc.symm)]
    exact ih h.2

theorem lookupMap_mem_values (m : ConversionMap) (c v : Char)
    (h : lookupMap m c = some v) : v ∈ mapValues m := by
  induction m with
  | nil => simp [lookupMap] at h
  | cons p rest ih =>
    simp only [lookupMap] at h
    rw [mapValues_cons, List.mem_cons]
    by_cases hk : p.1 = c
    · rw [if_pos hk, Option.some.injEq] at h
      exact Or.inl h.symm
    · rw [if_neg hk] at h
      exact Or.inr (ih h)

theorem lookupMap_of_mem_keys (m : ConversionMap) (c : Char) (h : c ∈ mapKeys m) :
    ∃ v, lookupMap m c = some v := by
  induction m with
  | nil => simp [mapKeys] at h
  | cons p rest ih =>
    by_cases hk : p.1 = c
    · exact ⟨p.2, by simp [lookupMap, hk]⟩
    · simp only [mapKeys, List.map_cons, List.mem_cons] at h
      rcases h with h | h
      · exact absurd h.symm hk
      · obtain ⟨v, hv⟩ := ih h
        exact ⟨v, by simp [lookupMap, hk, hv]⟩

theorem substChar_of_not_mem (m : ConversionMap) (c : Char) (h : c ∉ mapKeys m) :
    substChar m c = c := by
  simp [substChar, lookupMap_eq_none m c h]

theorem jsReplace_spec (r : CompiledRegex) (m : ConversionMap) (s : List Char) :
    convertText m r s =
      ((s.map (fun c => if classMatch r c then substChar m c else c)),
        s.countP (fun c => classMatch r c)) := by
  induction s with
  | nil => rfl
  | cons c rest ih =>
    simp only [convertText, jsReplace] at ih ⊢
    by_cases h : classMatch r c <;>
      simp [h, ih, List.countP_cons]

theorem any_singles (keys : List Char) (c : Char) :
    (keys.map ClassItem.single).any (fun it => itemMatch it c) = decide (c ∈ keys) := by
  induction keys with
  | nil => simp
  | cons k rest ih =>
    rw [List.map_cons, List.any_cons, ih,
      show itemMatch (ClassItem.single k) c = decide (k = c) from rfl]
    by_cases h : k = c
    · subst h; simp
    · have h' : ¬c = k := fun hc => h hc.symm
      simp [h, h']

theorem classMatch_singles (keys : List Char) (c : Char) :
    classMatch ⟨false, keys.map ClassItem.single⟩ c = decide (c ∈ keys) := by
  simp only [classMatch]
  simp [any_singles]

theorem parseAtom_plain (c : Char) (l : List Char) (h1 : c ≠ '\\') (h2 : c ≠ ']') :
    parseAtom (c :: l) = some (c, l) := by
  simp [parseAtom, h1, h2]

theorem parseAtom_escaped (c : Char) (l : List Char) (h : ¬c.isAlphanum) :
    parseAtom ('\\' :: c :: l) = some (c, l) := by
  simp [parseAtom, h]

theorem head_append_close_ne_dash (l : List Char) (h : ∀ c ∈ l, c ≠ '-') :
    (l ++ [']']).head? ≠ some '-' := by
  cases l with
  | nil => simp
  | cons a t => simpa using h a (by simp)

theorem parseItems_safeBody (keys : List Char) : ∀ fuel, keys.length < fuel →
    (∀ c ∈ keys, c ∉ classMetachars) →
    parseItems fuel (keys ++ [']']) = some (keys.map ClassItem.single, []) := by
  induction keys with
  | nil =>
    intro fuel hf _
    obtain ⟨f, rfl⟩ : ∃ f, fuel = f + 1 := ⟨fuel - 1, by omega⟩
    simp [parseItems]
  | cons k rest ih =>
    intro fuel hf hsafe
    obtain ⟨f, rfl⟩ : ∃ f, fuel = f + 1 := ⟨fuel - 1, by omega⟩
    have hk : k ∉ classMetachars := hsafe k (by simp)
    simp only [classMetachars, List.mem_cons, List.not_mem_nil, or_false, not_or] at hk
    obtain ⟨hk1, hk2, _, _⟩ := hk
    have hne : (rest ++ [']']).head? ≠ some '-' := by
      refine head_append_close_ne_dash rest (fun c hc => ?_)
      have := hsafe c (by simp [hc])
      simp only [classMetachars, List.mem_cons, List.not_mem_nil, or_false, not_or] at this
      exact this.2.2.2
    rw [List.cons_append]
    simp only [parseItems]
    rw [if_neg hk1, parseAtom_plain k _ hk2 hk1]
    simp only []
    rw [if_neg (fun hand => hne hand.1)]
    rw [ih f (by simp only [List.length_cons] at hf; omega)
      (fun c hc => hsafe c (by simp [hc]))]
    rfl

theorem escapeSet_not_alphanum : ∀ c ∈ Utils.escapeSet, ¬c.isAlphanum := by decide

theorem escBody_head_ne_dash (keys : List Char) (h : '-' ∉ keys) :
    ((keys.map Utils.escapeKey).flatten ++ [']']).head? ≠ some '-' := by
  cases keys with
  | nil => simp
  | cons k t =>
    simp only [List.map_cons, List.flatten_cons, Utils.escapeKey]
    by_cases hk : k ∈ Utils.escapeSet
    · simp [hk]
    · have hkd : k ≠ '-' := fun hkd => h (by simp [hkd])
      simp [hk, hkd]

theorem parseItems_escapedBody (keys : List Char) : ∀ fuel,
    ((keys.map Utils.escapeKey).flatten).length < fuel → '-' ∉ keys →
    parseItems fuel ((keys.map Utils.escapeKey).flatten ++ [']']) =
      some (keys.map ClassItem.single, []) := by
  induction keys with
  | nil =>
    intro fuel hf _
    obtain ⟨f, rfl⟩ : ∃ f, fuel = f + 1 := ⟨fuel - 1, by omega⟩
    simp [parseItems]
  | cons k rest ih =>
    intro fuel hf hdash
    have hdrest : '-' ∉ rest := fun hc => hdash (by simp [hc])
    have hkd : k ≠ '-' := fun e => hdash (by simp [e])
    have hne : ((rest.map Utils.escapeKey).flatten ++ [']']).head? ≠ some '-' :=
      escBody_head_ne_dash rest hdrest
    by_cases hk : k ∈ Utils.escapeSet
    · have hflat : ((k :: rest).map Utils.escapeKey).flatten =
          '\\' :: k :: (rest.map Utils.escapeKey).flatten := by
        simp [Utils.escapeKey, hk]
      rw [hflat] at hf ⊢
      obtain ⟨f, rfl⟩ : ∃ f, fuel = f + 1 := ⟨fuel - 1, by omega⟩
      rw [List.cons_append, List.cons_append]
      simp only [parseItems]
      rw [if_neg (by decide : ¬('\\' = ']'))]
      rw [parseAtom_escaped k _ (escapeSet_not_alphanum k hk)]
      simp only []
      rw [if_neg (fun hand => hne hand.1)]
      rw [ih f (by simp only [List.length_cons] at hf; omega) hdrest]
      rfl
    · have hk2 : k ≠ '\\' := fun e => hk (by rw [e]; decide)
      have hk1 : k ≠ ']' := fun e => hk (by rw [e]; decide)
      have hflat : ((k :: rest).map Utils.escapeKey).flatten =
          k :: (rest.map Utils.escapeKey).flatten := by
        simp [Utils.escapeKey, hk]
      rw [hflat] at hf ⊢
      obtain ⟨f, rfl⟩ : ∃ f, fuel = f + 1 := ⟨fuel - 1, by omega⟩
      rw [List.cons_append]
      simp only [parseItems]
      rw [if_neg hk1, parseAtom_plain k _ hk2 hk1]
      simp only []
      rw [if_neg (fun hand => hne hand.1)]
      rw [ih f (by simp only [List.length_cons] at hf; omega) hdrest]
      rfl

theorem compileClassRegex_cons (l : List Char) :
    compileClassRegex ('[' :: l) =
      (let neg : Bool := decide (l.head? = some '^')
       let body := if neg then l.tail else l
       match parseItems body.length body with
       | some (items, []) => some ⟨neg, items⟩
       | some (_, _ :: _) => none
       | none => none) := rfl

theorem content_pattern_safe (m : ConversionMap) (h : safeKeys m) :
    Content.createUnicodePattern m = some ⟨false, (mapKeys m).map ClassItem.single⟩ := by
  have hne : (mapKeys m ++ [']']).head? ≠ some '^' := by
    cases hK : mapKeys m with
    | nil => simp
    | cons a t =>
      have ha := h a (by rw [hK]; simp)
      simp only [classMetachars, List.mem_cons, List.not_mem_nil, or_false, not_or] at ha
      simpa using ha.2.2.1
  show compileClassRegex ('[' :: (mapKeys m ++ [']'])) = _
  rw [compileClassRegex_cons]
  simp only [decide_eq_false hne, Bool.false_eq_true, if_false]
  rw [parseItems_safeBody (mapKeys m) (mapKeys m ++ [']']).length
    (by simp) (fun c hc => h c hc)]

theorem escBody_head_ne_caret (keys : List Char) :
    ((keys.map Utils.escapeKey).flatten ++ [']']).head? ≠ some '^' := by
  cases keys with
  | nil => simp
  | cons k t =>
    simp only [List.map_cons, List.flatten_cons, Utils.escapeKey]
    by_cases hk : k ∈ Utils.escapeSet
    · simp [hk]
    · have hkc : k ≠ '^' := fun e => hk (by rw [e]; decide)
      simp [hk, hkc]

theorem utils_pattern_noDash (m : ConversionMap) (h : '-' ∉ mapKeys m) :
    Utils.createUnicodePattern m = some ⟨false, (mapKeys m).map ClassItem.single⟩ := by
  unfold Utils.createUnicodePattern
  by_cases hE : (mapKeys m).isEmpty
  · have hnil : mapKeys m = [] := List.isEmpty_iff.mp hE
    rw [if_pos hE, hnil]
    decide
  · rw [if_neg hE]
    show compileClassRegex ('[' :: (((mapKeys m).map Utils.escapeKey).flatten ++ [']'])) = _
    rw [compileClassRegex_cons]
    simp only [decide_eq_false (escBody_head_ne_caret (mapKeys m)), Bool.false_eq_true, if_false]
    rw [parseItems_escapedBody (mapKeys m) (((mapKeys m).map Utils.escapeKey).flatten ++ [']']).length
      (by simp) h]

theorem convertText_exact (m : ConversionMap) (r : CompiledRegex)
    (hr : ∀ c, classMatch r c = decide (c ∈ mapKeys m)) (s : List Char) :
    convertText m r s =
      (s.map (substChar m), s.countP (fun c => decide (c ∈ mapKeys m))) := by
  rw [jsReplace_spec]
  refine Prod.ext ?_ ?_
  · simp only []
    apply List.map_congr_left
    intro c _
    rw [hr c]
    by_cases h : c ∈ mapKeys m
    · simp [h]
    · simp [h, substChar_of_not_mem m c h]
  · simp only []
    apply List.countP_congr
    intro c _
    rw [hr c]

theorem processNode_text (m : ConversionMap) (r : CompiledRegex) (s : List Char) (w : Nat) :
    processNode m r (.text s w) =
      if s = (convertText m r s).1 then (.text s w, (convertText m r s).2)
      else (.text (convertText m r s).1 (w + 1), (convertText m r s).2) := rfl

mutual
/-- The converter rewrites exactly the document-ordered text sequence:
text contents after a pass are the converted contents, and the count is
the sum of the per-text counts. -/
theorem processNode_spec (m : ConversionMap) (r : CompiledRegex) :
    ∀ d : DomNode,
      textContentsN (processNode m r d).1 =
        (textContentsN d).map (fun s => (convertText m r s).1) ∧
      (processNode m r d).2 = ((textContentsN d).map (fun s => (convertText m r s).2)).sum
  | .text s w => by
    rw [processNode_text]
    by_cases h : s = (convertText m r s).1
    · rw [if_pos h]
      exact ⟨by simp [textContentsN, ← h], by simp [textContentsN]⟩
    · rw [if_neg h]
      exact ⟨by simp [textContentsN], by simp [textContentsN]⟩
  | .element cs => by
    have h := processForest_spec m r cs
    exact ⟨by simpa [processNode, textContentsN] using h.1,
      by simpa [processNode, textContentsN] using h.2⟩

theorem processForest_spec (m : ConversionMap) (r : CompiledRegex) :
    ∀ cs : DomForest,
      textContentsF (processForest m r cs).1 =
        (textContentsF cs).map (fun s => (convertText m r s).1) ∧
      (processForest m r cs).2 = ((textContentsF cs).map (fun s => (convertText m r s).2)).sum
  | .nil => ⟨rfl, rfl⟩
  | .cons d ds => by
    have h1 := processNode_spec m r d
    have h2 := processForest_spec m r ds
    constructor
    · simp [processForest, textContentsF, h1.1, h2.1]
    · simp [processForest, textContentsF, h1.2, h2.2]
end

mutual
/-- When no text changes, the processed tree is the original tree — in
particular no write-back happens anywhere. -/
theorem processNode_unchanged (m : ConversionMap) (r : CompiledRegex) :
    ∀ d : DomNode, (∀ s ∈ textContentsN d, (convertText m r s).1 = s) →
      (processNode m r d).1 = d
  | .text s w => fun h => by
    have hs : (convertText m r s).1 = s := h s (by simp [textContentsN])
    rw [processNode_text, if_pos hs.symm]
  | .element cs => fun h => by
    have hcs := processForest_unchanged m r cs (fun s hs => h s (by simpa [textContentsN] using hs))
    simp [processNode, hcs]

theorem processForest_unchanged (m : ConversionMap) (r : CompiledRegex) :
    ∀ cs : DomForest, (∀ s ∈ textContentsF cs, (convertText m r s).1 = s) →
      (processForest m r cs).1 = cs
  | .nil => fun _ => rfl
  | .cons d ds => fun h => by
    have h1 := processNode_unchanged m r d (fun s hs => h s (by simp [textContentsF, hs]))
    have h2 := processForest_unchanged m r ds (fun s hs => h s (by simp [textContentsF, hs]))
    simp [processForest, h1, h2]
end

theorem processTextNodes_element (m : ConversionMap) (r : CompiledRegex) (cs : DomForest) :
    processTextNodes m r (.element cs) = processNode m r (.element cs) := rfl

theorem textNodesOf_element (cs : DomForest) :
    textNodesOf (.element cs) = textContentsF cs := rfl

theorem content_classMatch (m : ConversionMap) (r : CompiledRegex) (hsafe : safeKeys m)
    (hr : Content.createUnicodePattern m = some r) :
    ∀ c, classMatch r c = decide (c ∈ mapKeys m) := by
  rw [content_pattern_safe m hsafe] at hr
  obtain rfl : (⟨false, (mapKeys m).map ClassItem.single⟩ : CompiledRegex) = r :=
    Option.some.inj hr
  exact fun c => classMatch_singles (mapKeys m) c

theorem convertText_no_keys (m : ConversionMap) (r : CompiledRegex)
    (hcm : ∀ c, classMatch r c = decide (c ∈ mapKeys m))
    (s : List Char) (hs : ∀ c ∈ s, c ∉ mapKeys m) :
    convertText m r s = (s, 0) := by
  rw [convertText_exact m r hcm s]
  refine Prod.ext ?_ ?_
  · show s.map (substChar m) = s
    calc s.map (substChar m) = s.map id :=
          List.map_congr_left (fun c hc => substChar_of_not_mem m c (hs c hc))
      _ = s := List.map_id s
  · show s.countP (fun c => decide (c ∈ mapKeys m)) = 0
    rw [List.countP_eq_zero]
    intro c hc
    simpa using hs c hc

/-- C1 (amended): for every ConversionMap whose keys avoid the four
class metacharacters and whose key and value sets are disjoint,
processTextNodes with the content.js matcher maps every text node
pointwise — each key occurrence becomes the map's corresponding value,
non-keys stay untouched — the resulting text contains no key of the map,
and the count is the number of key occurrences; for the default map this
yields exactly 3 conversions on the three mapped code points interleaved
with ASCII (see the witness). -/
theorem C1_conversion_complete (m : ConversionMap) (r : CompiledRegex) (cs : DomForest)
    (hsafe : safeKeys m)
    (hdisj : ∀ v ∈ mapValues m, v ∉ mapKeys m)
    (hr : Content.createUnicodePattern m = some r) :
    textNodesOf (processTextNodes m r (.element cs)).1 =
      (textContentsF cs).map (fun s => s.map (substChar m)) ∧
    (∀ s ∈ textNodesOf (processTextNodes m r (.element cs)).1, ∀ c ∈ s, c ∉ mapKeys m) ∧
    (∀ c ∈ mapKeys m, ∃ v, lookupMap m c = some v ∧ substChar m c = v ∧ v ∈ mapValues m) ∧
    (∀ c, c ∉ mapKeys m → substChar m c = c) ∧
    (processTextNodes m r (.element cs)).2 =
      ((textContentsF cs).map (fun s => s.countP (fun c => decide (c ∈ mapKeys m)))).sum := by
  have hcm := content_classMatch m r hsafe hr
  have hforest := processForest_spec m r cs
  have htext : textNodesOf (processTextNodes m r (.element cs)).1 =
      (textContentsF cs).map (fun s => s.map (substChar m)) := by
    show textNodesOf (.element (processForest m r cs).1) = _
    rw [textNodesOf_element, hforest.1]
    exact List.map_congr_left (fun s _ => by rw [convertText_exact m r hcm s])
  refine ⟨htext, ?_, ?_, fun c hc => substChar_of_not_mem m c hc, ?_⟩
  · intro s hs c hcs
    rw [htext] at hs
    obtain ⟨s0, _, rfl⟩ := List.mem_map.mp hs
    obtain ⟨c0, _, rfl⟩ := List.mem_map.mp hcs
    by_cases hk : c0 ∈ mapKeys m
    · obtain ⟨v, hv⟩ := lookupMap_of_mem_keys m c0 hk
      have hsub : substChar m c0 = v := by simp [substChar, hv]
      rw [hsub]
      exact hdisj v (lookupMap_mem_values m c0 v hv)
    · rw [substChar_of_not_mem m c0 hk]; exact hk
  · intro c hc
    obtain ⟨v, hv⟩ := lookupMap_of_mem_keys m c hc
    exact ⟨v, hv, by simp [substChar, hv], lookupMap_mem_values m c v hv⟩
  · show (processForest m r cs).2 = _
    rw [hforest.2]
    exact congrArg List.sum
      (List.map_congr_left (fun s _ => by rw [convertText_exact m r hcm s]))

/-- C1 witness: the default map is safe and disjoint, and on the text
node holding the three mapped code points interleaved with ASCII the
converter rewrites it to the ASCII form with count 3. -/
theorem C1_witness :
    safeKeys DEFAULT_MAP ∧
    (∀ v ∈ mapValues DEFAULT_MAP, v ∉ mapKeys DEFAULT_MAP) ∧
    textNodesOf (processTextNodes DEFAULT_MAP
        ⟨false, [.single (Char.ofNat 0x02F8), .single (Char.ofNat 0x2024),
          .single (Char.ofNat 0x2044)]⟩
        (.element (.cons (.text ("case".data ++ [Char.ofNat 0x02F8] ++ "study".data ++
          [Char.ofNat 0x2024] ++ "test".data ++ [Char.ofNat 0x2044]) 0) .nil))).1 =
      ["case:study.test/".data] ∧
    (processTextNodes DEFAULT_MAP
        ⟨false, [.single (Char.ofNat 0x02F8), .single (Char.ofNat 0x2024),
          .single (Char.ofNat 0x2044)]⟩
        (.element (.cons (.text ("case".data ++ [Char.ofNat 0x02F8] ++ "study".data ++
          [Char.ofNat 0x2024] ++ "test".data ++ [Char.ofNat 0x2044]) 0) .nil))).2 = 3 := by
  have h := C1_conversion_complete DEFAULT_MAP
    ⟨false, [.single (Char.ofNat 0x02F8), .single (Char.ofNat 0x2024),
      .single (Char.ofNat 0x2044)]⟩
    (.cons (.text ("case".data ++ [Char.ofNat 0x02F8] ++ "study".data ++
      [Char.ofNat 0x2024] ++ "test".data ++ [Char.ofNat 0x2044]) 0) .nil)
    (by decide) (by decide) (by decide)
  refine ⟨by decide, by decide, ?_, ?_⟩
  · rw [h.1]; decide
  · rw [h.2.2.2.2]; decide

/-- C1 counterexample: the map with keys a, dash, z and values 0, 1, 2
has disjoint keys and values, yet the content.js matcher compiles the
keys to the class range a-z, so converting the text consisting of the
key dash leaves that key occurrence in place (count 0), refuting the
no-remaining-keys conclusion of the claim as stated. -/
theorem C1_counterexample :
    (∀ v ∈ mapValues [('a', '0'), ('-', '1'), ('z', '2')],
      v ∉ mapKeys [('a', '0'), ('-', '1'), ('z', '2')]) ∧
    Content.createUnicodePattern [('a', '0'), ('-', '1'), ('z', '2')] =
      some ⟨false, [.range 'a' 'z']⟩ ∧
    processTextNodes [('a', '0'), ('-', '1'), ('z', '2')] ⟨false, [.range 'a' 'z']⟩
        (.element (.cons (.text ['-'] 0) .nil)) =
      (.element (.cons (.text ['-'] 0) .nil), 0) ∧
    '-' ∈ mapKeys [('a', '0'), ('-', '1'), ('z', '2')] := by
  refine ⟨by decide, by decide, by decide, by decide⟩

/-- C2 (amended): the escaped builder of part_006 treats the fourteen
escaped metacharacters literally and yields a matcher recognizing
exactly the key set whenever the dash — which its escape step misses —
is not a key; the content.js builder, which escapes nothing, does so
whenever the keys avoid all four class metacharacters. -/
theorem C2_exact_match (m : ConversionMap) :
    ('-' ∉ mapKeys m → ∃ r, Utils.createUnicodePattern m = some r ∧
      ∀ c, (classMatch r c = true ↔ c ∈ mapKeys m)) ∧
    (safeKeys m → ∃ r, Content.createUnicodePattern m = some r ∧
      ∀ c, (classMatch r c = true ↔ c ∈ mapKeys m)) := by
  constructor
  · intro h
    refine ⟨⟨false, (mapKeys m).map ClassItem.single⟩, utils_pattern_noDash m h, fun c => ?_⟩
    rw [classMatch_singles]
    exact decide_eq_true_iff
  · intro h
    refine ⟨⟨false, (mapKeys m).map ClassItem.single⟩, content_pattern_safe m h, fun c => ?_⟩
    rw [classMatch_singles]
    exact decide_eq_true_iff

/-- C2 witness: the default map has no dash key and is metacharacter
free, so both builders produce an exact matcher for it. -/
theorem C2_witness :
    ('-' ∉ mapKeys DEFAULT_MAP ∧ safeKeys DEFAULT_MAP) ∧
    (∃ r, Utils.createUnicodePattern DEFAULT_MAP = some r ∧
      ∀ c, (classMatch r c = true ↔ c ∈ mapKeys DEFAULT_MAP)) ∧
    (∃ r, Content.createUnicodePattern DEFAULT_MAP = some r ∧
      ∀ c, (classMatch r c = true ↔ c ∈ mapKeys DEFAULT_MAP)) :=
  ⟨⟨by decide, by decide⟩, (C2_exact_match DEFAULT_MAP).1 (by decide),
    (C2_exact_match DEFAULT_MAP).2 (by decide)⟩

/-- C2 counterexample: with keys a, dash, z — the dash escaped by
neither builder — both builders compile the class a-z, whose matcher
accepts b, a character that is not a key, and rejects the key dash; so
no matcher recognizing exactly the key set is produced, refuting the
claim as stated. -/
theorem C2_counterexample :
    Utils.createUnicodePattern [('a', '0'), ('-', '1'), ('z', '2')] =
      some ⟨false, [.range 'a' 'z']⟩ ∧
    Content.createUnicodePattern [('a', '0'), ('-', '1'), ('z', '2')] =
      some ⟨false, [.range 'a' 'z']⟩ ∧
    classMatch ⟨false, [.range 'a' 'z']⟩ 'b' = true ∧
    'b' ∉ mapKeys [('a', '0'), ('-', '1'), ('z', '2')] ∧
    classMatch ⟨false, [.range 'a' 'z']⟩ '-' = false ∧
    '-' ∈ mapKeys [('a', '0'), ('-', '1'), ('z', '2')] := by
  refine ⟨by decide, by decide, by decide, by decide, by decide, by decide⟩

/-- C3: the empty map compiles — in both builders — to the empty class,
whose matcher matches nothing; converting any text yields count 0 and
unmodified text, converting any root leaves it untouched with count 0,
and the orchestration reports this as success, never as failure. -/
theorem C3_empty_map :
    Content.createUnicodePattern [] = some ⟨false, []⟩ ∧
    Utils.createUnicodePattern [] = some ⟨false, []⟩ ∧
    (∀ c, classMatch ⟨false, []⟩ c = false) ∧
    (∀ s, convertText [] ⟨false, []⟩ s = (s, 0)) ∧
    (∀ d, processTextNodes [] ⟨false, []⟩ d = (d, 0)) ∧
    (∀ elems, (convertTextAsync (some elems) []).1.success = true ∧
      (convertTextAsync (some elems) []).1.count = 0) := by
  have hconv : ∀ s, convertText [] ⟨false, []⟩ s = (s, 0) := fun s =>
    convertText_no_keys [] ⟨false, []⟩ (fun c => by simp [classMatch, mapKeys]) s
      (fun c _ => by simp [mapKeys])
  have hproc : ∀ d, processTextNodes [] ⟨false, []⟩ d = (d, 0) := by
    intro d
    cases d with
    | text s w => rfl
    | element cs =>
      have h1 := processForest_unchanged [] ⟨false, []⟩ cs (fun s _ => by rw [hconv])
      have h2 := (processForest_spec [] ⟨false, []⟩ cs).2
      show ((DomNode.element (processForest [] ⟨false, []⟩ cs).1,
          (processForest [] ⟨false, []⟩ cs).2) : DomNode × Nat) = (DomNode.element cs, 0)
      rw [h1, h2]
      congr 1
      simp [hconv]
  have hsum : ∀ l : List DomNode,
      (l.map (Prod.snd ∘ processTextNodes [] ⟨false, []⟩)).sum = 0 := by
    intro l
    induction l with
    | nil => rfl
    | cons d ds ih => simp [Function.comp, hproc, ih]
  refine ⟨by decide, by decide, fun c => rfl, hconv, hproc, fun elems => ?_⟩
  have hpat : Content.createUnicodePattern [] = some ⟨false, []⟩ := by decide
  cases elems with
  | nil => simp [convertTextAsync, hpat]
  | cons e es =>
    constructor
    · simp [convertTextAsync, hpat]
    · simp [convertTextAsync, hpat, hproc, hsum]

/-- C4 (amended): for maps with metacharacter-free keys whose values
are never keys, a second converter pass over the result of a first pass
changes nothing and reports count 0. -/
theorem C4_idempotent (m : ConversionMap) (r : CompiledRegex) (cs : DomForest)
    (hsafe : safeKeys m)
    (hdisj : ∀ v ∈ mapValues m, v ∉ mapKeys m)
    (hr : Content.createUnicodePattern m = some r) :
    processTextNodes m r (processTextNodes m r (.element cs)).1 =
      ((processTextNodes m r (.element cs)).1, 0) := by
  have hcm := content_classMatch m r hsafe hr
  have hforest := processForest_spec m r cs
  have htexts : ∀ s ∈ textContentsF (processForest m r cs).1, ∀ c ∈ s, c ∉ mapKeys m := by
    intro s hs c hc
    rw [hforest.1] at hs
    obtain ⟨s0, _, rfl⟩ := List.mem_map.mp hs
    rw [convertText_exact m r hcm s0] at hc
    obtain ⟨c0, _, rfl⟩ := List.mem_map.mp hc
    by_cases hk : c0 ∈ mapKeys m
    · obtain ⟨v, hv⟩ := lookupMap_of_mem_keys m c0 hk
      have hsub : substChar m c0 = v := by simp [substChar, hv]
      rw [hsub]
      exact hdisj v (lookupMap_mem_values m c0 v hv)
    · rw [substChar_of_not_mem m c0 hk]; exact hk
  have hunch := processForest_unchanged m r (processForest m r cs).1
    (fun s hs => by rw [convertText_no_keys m r hcm s (htexts s hs)])
  have hcount := (processForest_spec m r (processForest m r cs).1).2
  show ((DomNode.element (processForest m r (processForest m r cs).1).1,
      (processForest m r (processForest m r cs).1).2) : DomNode × Nat) =
    (DomNode.element (processForest m r cs).1, 0)
  rw [hunch]
  congr 1
  rw [hcount, List.sum_eq_zero]
  intro x hx
  obtain ⟨s, hs, rfl⟩ := List.mem_map.mp hx
  rw [convertText_no_keys m r hcm s (htexts s hs)]

/-- C4 witness: for the default map and the demo text node, the second
pass returns the first-pass tree with count 0. -/
theorem C4_witness :
    safeKeys DEFAULT_MAP ∧
    (∀ v ∈ mapValues DEFAULT_MAP, v ∉ mapKeys DEFAULT_MAP) ∧
    processTextNodes DEFAULT_MAP
        ⟨false, [.single (Char.ofNat 0x02F8), .single (Char.ofNat 0x2024),
          .single (Char.ofNat 0x2044)]⟩
        (processTextNodes DEFAULT_MAP
          ⟨false, [.single (Char.ofNat 0x02F8), .single (Char.ofNat 0x2024),
            .single (Char.ofNat 0x2044)]⟩
          (.element (.cons (.text ("case".data ++ [Char.ofNat 0x02F8] ++ "study".data ++
            [Char.ofNat 0x2024] ++ "test".data ++ [Char.ofNat 0x2044]) 0) .nil))).1 =
      ((processTextNodes DEFAULT_MAP
          ⟨false, [.single (Char.ofNat 0x02F8), .single (Char.ofNat 0x2024),
            .single (Char.ofNat 0x2044)]⟩
          (.element (.cons (.text ("case".data ++ [Char.ofNat 0x02F8] ++ "study".data ++
            [Char.ofNat 0x2024] ++ "test".data ++ [Char.ofNat 0x2044]) 0) .nil))).1, 0) :=
  ⟨by decide, by decide,
    C4_idempotent DEFAULT_MAP
      ⟨false, [.single (Char.ofNat 0x02F8), .single (Char.ofNat 0x2024),
        .single (Char.ofNat 0x2044)]⟩
      (.cons (.text ("case".data ++ [Char.ofNat 0x02F8] ++ "study".data ++
        [Char.ofNat 0x2024] ++ "test".data ++ [Char.ofNat 0x2044]) 0) .nil)
      (by decide) (by decide) (by decide)⟩

/-- C4 counterexample: for the disjoint map with keys a, dash, z the
compiled class is the range a-z, which also matches b; on the text b the
first pass counts 1 and changes nothing, and the second pass again
reports count 1 — not 0 as the claim states. -/
theorem C4_counterexample :
    (∀ v ∈ mapValues [('a', '0'), ('-', '1'), ('z', '2')],
      v ∉ mapKeys [('a', '0'), ('-', '1'), ('z', '2')]) ∧
    Content.createUnicodePattern [('a', '0'), ('-', '1'), ('z', '2')] =
      some ⟨false, [.range 'a' 'z']⟩ ∧
    processTextNodes [('a', '0'), ('-', '1'), ('z', '2')] ⟨false, [.range 'a' 'z']⟩
        (.element (.cons (.text ['b'] 0) .nil)) =
      (.element (.cons (.text ['b'] 0) .nil), 1) ∧
    (processTextNodes [('a', '0'), ('-', '1'), ('z', '2')] ⟨false, [.range 'a' 'z']⟩
        (processTextNodes [('a', '0'), ('-', '1'), ('z', '2')] ⟨false, [.range 'a' 'z']⟩
          (.element (.cons (.text ['b'] 0) .nil))).1).2 = 1 := by
  refine ⟨by decide, by decide, by decide, by decide⟩

/-- C5 (amended): for maps with metacharacter-free keys, a root none of
whose text contains a key character is returned unchanged with count 0. -/
theorem C5_no_key_chars (m : ConversionMap) (r : CompiledRegex) (cs : DomForest)
    (hsafe : safeKeys m)
    (hr : Content.createUnicodePattern m = some r)
    (htext : ∀ s ∈ textContentsF cs, ∀ c ∈ s, c ∉ mapKeys m) :
    processTextNodes m r (.element cs) = (.element cs, 0) := by
  have hcm := content_classMatch m r hsafe hr
  have hunch := processForest_unchanged m r cs
    (fun s hs => by rw [convertText_no_keys m r hcm s (htext s hs)])
  have hcount := (processForest_spec m r cs).2
  show ((DomNode.element (processForest m r cs).1, (processForest m r cs).2) : DomNode × Nat) =
    (DomNode.element cs, 0)
  rw [hunch]
  congr 1
  rw [hcount, List.sum_eq_zero]
  intro x hx
  obtain ⟨s, hs, rfl⟩ := List.mem_map.mp hx
  rw [convertText_no_keys m r hcm s (htext s hs)]

/-- C5 witness: the default map leaves the all-ASCII text hello
untouched with count 0. -/
theorem C5_witness :
    safeKeys DEFAULT_MAP ∧
    (∀ s ∈ textContentsF (.cons (.text "hello".data 0) .nil), ∀ c ∈ s,
      c ∉ mapKeys DEFAULT_MAP) ∧
    processTextNodes DEFAULT_MAP
        ⟨false, [.single (Char.ofNat 0x02F8), .single (Char.ofNat 0x2024),
          .single (Char.ofNat 0x2044)]⟩
        (.element (.cons (.text "hello".data 0) .nil)) =
      (.element (.cons (.text "hello".data 0) .nil), 0) :=
  ⟨by decide, by decide,
    C5_no_key_chars DEFAULT_MAP
      ⟨false, [.single (Char.ofNat 0x02F8), .single (Char.ofNat 0x2024),
        .single (Char.ofNat 0x2044)]⟩
      (.cons (.text "hello".data 0) .nil) (by decide) (by decide) (by decide)⟩

/-- C5 counterexample: the text b contains no key of the map with keys
a, dash, z, yet the content.js matcher (class range a-z) matches b, so
the converter reports count 1 instead of the claimed 0 (the text itself
stays unchanged). -/
theorem C5_counterexample :
    (∀ c ∈ (['b'] : List Char), c ∉ mapKeys [('a', '0'), ('-', '1'), ('z', '2')]) ∧
    Content.createUnicodePattern [('a', '0'), ('-', '1'), ('z', '2')] =
      some ⟨false, [.range 'a' 'z']⟩ ∧
    (processTextNodes [('a', '0'), ('-', '1'), ('z', '2')] ⟨false, [.range 'a' 'z']⟩
        (.element (.cons (.text ['b'] 0) .nil))).2 = 1 := by
  refine ⟨by decide, by decide, by decide⟩

/-- A flat root holding the given texts as fresh text-node children. -/
def forestOfTexts : List (List Char) → DomForest
  | [] => .nil
  | s :: rest => .cons (.text s 0) (forestOfTexts rest)

theorem textContentsF_forestOfTexts (L : List (List Char)) :
    textContentsF (forestOfTexts L) = L := by
  induction L with
  | nil => rfl
  | cons s rest ih => simp [forestOfTexts, textContentsF, textContentsN, ih]

/-- C6: the converter operates on the flattened document-ordered
sequence of text-bearing leaves — any root yields the same count and the
same converted text sequence as the flat root holding its walker-visited
texts as immediate children, so nested text is converted and counted
identically to flat text. -/
theorem C6_nested_equals_flat (m : ConversionMap) (r : CompiledRegex) (d : DomNode) :
    (processTextNodes m r d).2 =
      (processTextNodes m r (.element (forestOfTexts (textNodesOf d)))).2 ∧
    textNodesOf (processTextNodes m r d).1 =
      textNodesOf (processTextNodes m r (.element (forestOfTexts (textNodesOf d)))).1 := by
  cases d with
  | text s w => exact ⟨rfl, rfl⟩
  | element cs =>
    have hL := textContentsF_forestOfTexts (textContentsF cs)
    have h1 := processForest_spec m r cs
    have h2 := processForest_spec m r (forestOfTexts (textContentsF cs))
    constructor
    · show (processForest m r cs).2 =
        (processForest m r (forestOfTexts (textContentsF cs))).2
      rw [h1.2, h2.2, hL]
    · show textContentsF (processForest m r cs).1 =
        textContentsF (processForest m r (forestOfTexts (textContentsF cs))).1
      rw [h1.1, h2.1, hL]

/-- C7: a text node is written back exactly when the substituted text
differs from the original — an unchanged node is returned as-is with its
write count untouched, a changed node gets the new text and one more
write; consequently a tree none of whose texts change is returned
identical. -/
theorem C7_writeback_only_on_change (m : ConversionMap) (r : CompiledRegex) :
    (∀ s w, (convertText m r s).1 = s →
      processNode m r (.text s w) = (.text s w, (convertText m r s).2)) ∧
    (∀ s w, (convertText m r s).1 ≠ s →
      processNode m r (.text s w) =
        (.text (convertText m r s).1 (w + 1), (convertText m r s).2)) ∧
    (∀ d, (∀ s ∈ textContentsN d, (convertText m r s).1 = s) → (processNode m r d).1 = d) := by
  refine ⟨?_, ?_, processNode_unchanged m r⟩
  · intro s w h
    rw [processNode_text, if_pos h.symm]
  · intro s w h
    rw [processNode_text, if_neg (fun e => h e.symm)]

/-- C7 witness: under the default map the ASCII text abc converts to
itself, and the node is returned with its write count unchanged. -/
theorem C7_witness :
    (convertText DEFAULT_MAP ⟨false, []⟩ "abc".data).1 = "abc".data ∧
    processNode DEFAULT_MAP ⟨false, []⟩ (.text "abc".data 0) =
      (.text "abc".data 0, (convertText DEFAULT_MAP ⟨false, []⟩ "abc".data).2) :=
  ⟨by decide, (C7_writeback_only_on_change DEFAULT_MAP ⟨false, []⟩).1 "abc".data 0 (by decide)⟩

/-- C8: convertTextAsync reports an empty selector result as success
with count 0 and the no-elements message, while a selector whose DOM
query raises the SyntaxError DOMException produces a failure result
(success false, count 0) carrying the invalid-selector message. -/
theorem C8_orchestration (m : ConversionMap) (r : CompiledRegex)
    (hr : Content.createUnicodePattern m = some r) :
    (convertTextAsync (some []) m).1 = ⟨true, .noElements, 0⟩ ∧
    (convertTextAsync none m).1 = ⟨false, .invalidSelector, 0⟩ := by
  constructor <;> simp [convertTextAsync, hr]

/-- C8 witness: both orchestration outcomes at the default map. -/
theorem C8_witness :
    Content.createUnicodePattern DEFAULT_MAP =
      some ⟨false, [.single (Char.ofNat 0x02F8), .single (Char.ofNat 0x2024),
        .single (Char.ofNat 0x2044)]⟩ ∧
    (convertTextAsync (some []) DEFAULT_MAP).1 = ⟨true, .noElements, 0⟩ ∧
    (convertTextAsync none DEFAULT_MAP).1 = ⟨false, .invalidSelector, 0⟩ :=
  ⟨by decide,
    (C8_orchestration DEFAULT_MAP
      ⟨false, [.single (Char.ofNat 0x02F8), .single (Char.ofNat 0x2024),
        .single (Char.ofNat 0x2044)]⟩ (by decide)).1,
    (C8_orchestration DEFAULT_MAP
      ⟨false, [.single (Char.ofNat 0x02F8), .single (Char.ofNat 0x2024),
        .single (Char.ofNat 0x2044)]⟩ (by decide)).2⟩

/-- C9: saveHistoryEntry always yields the 50-newest prefix of the
entry-first history — so the stored history never exceeds 50 entries,
the new entry sits at the front, and overflow discards the oldest
entries; clearHistory resets to the empty list, trivially within the
bound. -/
theorem C9_history_bounded {α : Type} (history : List α) (entry : α) :
    Storage.saveHistoryEntry history entry = (entry :: history).take 50 ∧
    (Storage.saveHistoryEntry history entry).length ≤ 50 ∧
    (Storage.saveHistoryEntry history entry).head? = some entry ∧
    (Storage.clearHistory : List α) = [] := by
  have h1 : Storage.saveHistoryEntry history entry = (entry :: history).take 50 := by
    unfold Storage.saveHistoryEntry
    by_cases h : (entry :: history).length > 50
    · rw [if_pos h]
    · rw [if_neg h]
      exact (List.take_of_length_le (by omega)).symm
  refine ⟨h1, ?_, ?_, rfl⟩
  · rw [h1]
    exact List.length_take_le 50 (entry :: history)
  · rw [h1]
    rfl

/-- C10 (implicit behavior): the returned count counts matcher matches,
not text changes — it equals the number of matched characters whatever
the map's values are; in particular a single-entry map whose value
equals its key yields a positive count on text containing that key while
the tree (text and write count) is returned unchanged. -/
theorem C10_count_counts_matches :
    (∀ (m : ConversionMap) (r : CompiledRegex) (s : List Char),
      (convertText m r s).2 = s.countP (fun c => classMatch r c)) ∧
    (∀ (c : Char) (r : CompiledRegex) (s : List Char), c ∉ classMetachars →
      Content.createUnicodePattern [(c, c)] = some r → c ∈ s →
      0 < (processTextNodes [(c, c)] r (.element (.cons (.text s 0) .nil))).2 ∧
      (processTextNodes [(c, c)] r (.element (.cons (.text s 0) .nil))).1 =
        .element (.cons (.text s 0) .nil)) := by
  constructor
  · intro m r s
    rw [jsReplace_spec]
  · intro c r s hc hr hs
    have hsafe : safeKeys [(c, c)] := by
      intro x hx
      have : x = c := by simpa [mapKeys] using hx
      rw [this]
      exact hc
    have hcm := content_classMatch [(c, c)] r hsafe hr
    have hsub : ∀ x, substChar [(c, c)] x = x := by
      intro x
      by_cases hx : x = c
      · rw [hx]; simp [substChar, lookupMap]
      · exact substChar_of_not_mem _ x (by simpa [mapKeys] using hx)
    have hconv := convertText_exact [(c, c)] r hcm s
    have hconv1 : (convertText [(c, c)] r s).1 = s := by
      rw [hconv]
      show s.map _ = s
      calc s.map (substChar [(c, c)]) = s.map id := List.map_congr_left (fun x _ => hsub x)
        _ = s := List.map_id s
    constructor
    · show 0 < (processForest [(c, c)] r (.cons (.text s 0) .nil)).2
      rw [(processForest_spec [(c, c)] r (.cons (.text s 0) .nil)).2]
      show 0 < ([s].map (fun t => (convertText [(c, c)] r t).2)).sum
      rw [List.map_singleton, List.sum_singleton, hconv]
      show 0 < s.countP (fun x => decide (x ∈ mapKeys [(c, c)]))
      exact List.countP_pos_iff.mpr ⟨c, hs, by simp [mapKeys]⟩
    · have hu := processForest_unchanged [(c, c)] r (.cons (.text s 0) .nil)
        (fun t ht => by
          have : t = s := by simpa [textContentsF, textContentsN] using ht
          rw [this, hconv1])
      show DomNode.element (processForest [(c, c)] r (.cons (.text s 0) .nil)).1 =
        DomNode.element (.cons (.text s 0) .nil)
      rw [hu]

/-- C10 witness: the map sending a to a yields count 1 on abc while the
node is returned unchanged, with no write-back. -/
theorem C10_witness :
    'a' ∉ classMetachars ∧
    Content.createUnicodePattern [('a', 'a')] = some ⟨false, [.single 'a']⟩ ∧
    'a' ∈ "abc".data ∧
    0 < (processTextNodes [('a', 'a')] ⟨false, [.single 'a']⟩
      (.element (.cons (.text "abc".data 0) .nil))).2 ∧
    (processTextNodes [('a', 'a')] ⟨false, [.single 'a']⟩
      (.element (.cons (.text "abc".data 0) .nil))).1 =
      .element (.cons (.text "abc".data 0) .nil) :=
  ⟨by decide, by decide, by decide,
    (C10_count_counts_matches.2 'a' ⟨false, [.single 'a']⟩ "abc".data
      (by decide) (by decide) (by decide)).1,
    (C10_count_counts_matches.2 'a' ⟨false, [.single 'a']⟩ "abc".data
      (by decide) (by decide) (by decide)).2⟩

end UUC
